import Mathlib

/-!
Verification of the ai-file-organizer core pipeline.

This file is a shallow embedding of src/organizer.py (sanitizer, scanner,
batcher, relocation executor, CLI entry point) and of the worker loop of
src/gui.py (run controller with cooperative cancellation), together with
proofs of the specification claims about them.

Modelling conventions:
* Python strings are lists of characters (`List Char`); the ASCII case
  conversions of str.capitalize are embedded explicitly.
* Filesystem paths are lists of path segments (`List String`) relative to
  the organized root directory; the filesystem is a list of (path, kind)
  entries in discovery order.
* The Gemini call inside get_ai_categories_batch is an opaque
  classification oracle, a parameter of type List Item → List Classification.
* Fallible filesystem operations return the partially updated state plus
  an optional error, mirroring which exceptions the Python code catches.
-/

namespace Organizer

/-- Character codes removed by the sanitizer: the characters
backslash / : * ? double-quote < > vertical-bar of the regex character
class in src/organizer.py line 47. -/
def isIllegal (c : Char) : Bool :=
  decide (c.toNat = 92 ∨ c.toNat = 47 ∨ c.toNat = 58 ∨ c.toNat = 42 ∨
    c.toNat = 63 ∨ c.toNat = 34 ∨ c.toNat = 60 ∨ c.toNat = 62 ∨ c.toNat = 124)

/-- ASCII whitespace: space, tab, newline, carriage return, vertical tab,
form feed; the character class of the regex backslash-s and of str.strip
in src/organizer.py line 48. -/
def isSpaceChar (c : Char) : Bool :=
  decide (c.toNat = 32 ∨ c.toNat = 9 ∨ c.toNat = 10 ∨ c.toNat = 13 ∨
    c.toNat = 11 ∨ c.toNat = 12)

/-- ASCII uppercase conversion of one character, as str.capitalize applies
to the first character of a word. -/
def toUpperChar (c : Char) : Char :=
  if 97 ≤ c.toNat ∧ c.toNat ≤ 122 then Char.ofNat (c.toNat - 32) else c

/-- ASCII lowercase conversion of one character, as str.capitalize applies
to the remaining characters of a word. -/
def toLowerChar (c : Char) : Char :=
  if 65 ≤ c.toNat ∧ c.toNat ≤ 90 then Char.ofNat (c.toNat + 32) else c

/-- str.capitalize: first character uppercased, the rest lowercased. -/
def pyCapitalize : List Char → List Char
  | [] => []
  | c :: cs => toUpperChar c :: cs.map toLowerChar

/-- str.split(sep): split at every occurrence of sep, keeping empty pieces;
the empty string yields one empty piece. -/
def splitOnChar (sep : Char) : List Char → List (List Char)
  | [] => [[]]
  | c :: cs =>
    match splitOnChar sep cs with
    | [] => [[]]
    | g :: gs => if c = sep then [] :: g :: gs else (c :: g) :: gs

/-- sep.join(groups): Python string join with a one-character separator. -/
def joinWith (sep : Char) : List (List Char) → List Char
  | [] => []
  | [g] => g
  | g :: g2 :: gs => g ++ sep :: joinWith sep (g2 :: gs)

/-- Auxiliary state machine for whitespace-run collapsing; the flag records
whether the previous character was inside a whitespace run that has
already been replaced by one underscore. -/
def collapseWsAux : Bool → List Char → List Char
  | _, [] => []
  | inRun, c :: cs =>
    if isSpaceChar c then
      (if inRun then collapseWsAux true cs else '_' :: collapseWsAux true cs)
    else c :: collapseWsAux false cs

/-- re.sub of one-or-more-whitespace with an underscore
(src/organizer.py line 48). -/
def collapseWs (l : List Char) : List Char := collapseWsAux false l

/-- str.strip: drop whitespace from both ends. -/
def stripWs (l : List Char) : List Char :=
  ((l.dropWhile (fun c => isSpaceChar c)).reverse.dropWhile
    (fun c => isSpaceChar c)).reverse

/-- Removal of the illegal characters (src/organizer.py line 47). -/
def removeIllegal (l : List Char) : List Char := l.filter (fun c => !isIllegal c)

/-- The literal fallback folder name Misc. -/
def miscName : List Char := ['M', 'i', 's', 'c']

/-- The loop body of sanitize_foldername (src/organizer.py lines 46-50):
remove illegal characters, strip the part and collapse internal whitespace
runs to underscores, capitalize each underscore-separated word, and fall
back to Misc when nothing remains. -/
def sanitizePart (part : List Char) : List Char :=
  let p1 := removeIllegal part
  let p2 := collapseWs (stripWs p1)
  let p3 := joinWith '_' ((splitOnChar '_' p2).map pyCapitalize)
  if p3 = [] then miscName else p3

/-- sanitize_foldername (src/organizer.py lines 43-51): sanitize every
slash-separated part and rejoin with slashes. -/
def sanitize_foldername (s : List Char) : List Char :=
  joinWith '/' ((splitOnChar '/' s).map sanitizePart)

/-- A character the sanitizer may emit inside a segment: neither an
illegal filesystem character nor whitespace. -/
def goodChar (c : Char) : Bool := !isIllegal c && !isSpaceChar c

/-- A character matching the word class of the claimed regular expression:
ASCII letter, digit, or underscore. -/
def wordChar (c : Char) : Bool :=
  decide ((65 ≤ c.toNat ∧ c.toNat ≤ 90) ∨ (97 ≤ c.toNat ∧ c.toNat ≤ 122) ∨
    (48 ≤ c.toNat ∧ c.toNat ≤ 57) ∨ c.toNat = 95)

/-- The claimed regular expression for sanitizer output: one or more
nonempty all-word-character segments joined by single slashes. -/
def matchesWordPath (s : List Char) : Bool :=
  (splitOnChar '/' s).all (fun seg => !seg.isEmpty && seg.all wordChar)

/-! ## Filesystem model -/

/-- Kind of a filesystem entry. -/
inductive EntryKind where
  | file : EntryKind
  | dir : EntryKind
deriving DecidableEq

/-- A path relative to the organized root directory: a list of segments. -/
abbrev FsPath := List String

/-- The filesystem under the organized root: (path, kind) entries listed
in the traversal order that Path.rglob would produce.  The root itself is
an existing directory and is not listed. -/
structure Fs where
  entries : List (FsPath × EntryKind)
deriving DecidableEq

/-- Whether any entry occupies the path. -/
def existsPath (fs : Fs) (p : FsPath) : Bool :=
  fs.entries.any (fun e => decide (e.1 = p))

/-- Whether a directory entry occupies the path (Path.is_dir). -/
def isDirFs (fs : Fs) (p : FsPath) : Bool :=
  decide ((p, EntryKind.dir) ∈ fs.entries)

/-- Path.mkdir for one directory level: a no-op when the directory already
exists, an error when a non-directory occupies the path, otherwise the new
directory entry is appended. -/
def mkdirOne (fs : Fs) (p : FsPath) : Fs × Option String :=
  if isDirFs fs p then (fs, none)
  else if existsPath fs p then (fs, some "FileExistsError")
  else (⟨fs.entries ++ [(p, EntryKind.dir)]⟩, none)

/-- The nonempty ancestor chain of a path, shortest first: for a path
[a,b,c] the list [[a],[a,b],[a,b,c]]. -/
def ancestorsOf (p : FsPath) : List FsPath :=
  (List.range p.length).map (fun i => p.take (i + 1))

/-- Create each directory of a list in order, stopping at the first
error; directories already created remain (the partial effect of
Path.mkdir with parents=True when it raises midway). -/
def mkdirAllGo : Fs → List FsPath → Fs × Option String
  | fs, [] => (fs, none)
  | fs, q :: qs =>
    match mkdirOne fs q with
    | (fs1, none) => mkdirAllGo fs1 qs
    | (fs1, some e) => (fs1, some e)

/-- Path.mkdir(parents=True, exist_ok=True) of src/organizer.py line 203:
create every missing ancestor of the path, in order. -/
def mkdirAll (fs : Fs) (p : FsPath) : Fs × Option String :=
  mkdirAllGo fs (ancestorsOf p)

/-- Renaming of a whole subtree: every entry at or below src is re-rooted
at dst (the effect of os.rename on a tree). -/
def renameTree (fs : Fs) (src dst : FsPath) : Fs :=
  ⟨fs.entries.map (fun e =>
    if src.isPrefixOf e.1 then (dst ++ e.1.drop src.length, e.2) else e)⟩

/-- Deletion of a single entry: the overwrite os.rename performs when the
destination is an existing file. -/
def removeEntry (fs : Fs) (p : FsPath) : Fs :=
  ⟨fs.entries.filter (fun e => decide (e.1 ≠ p))⟩

/-- shutil.move(src, dst) as called in src/organizer.py line 212: error
when src is missing; when dst is an existing directory the source is
moved into it, unless that occupied destination already exists; when dst
is an existing file, os.rename overwrites it for a file source and fails
for a directory source; otherwise the subtree is renamed to dst. -/
def shutilMove (fs : Fs) (src dst : FsPath) : Fs × Option String :=
  if existsPath fs src then
    if isDirFs fs dst then
      if existsPath fs (dst ++ [src.getLastD ""]) then
        (fs, some "Destination path already exists")
      else (renameTree fs src (dst ++ [src.getLastD ""]), none)
    else if existsPath fs dst then
      if isDirFs fs src then (fs, some "NotADirectoryError")
      else (renameTree (removeEntry fs dst) src dst, none)
    else (renameTree fs src dst, none)
  else (fs, some "FileNotFoundError")

/-! ## Data model -/

/-- Python str.lower restricted to ASCII. -/
def lowerStr (s : String) : String := String.mk (s.data.map toLowerChar)

/-- The index of the last dot in a name, if any. -/
def lastDotIdx : List Char → Option Nat
  | [] => none
  | c :: rest =>
    match lastDotIdx rest with
    | some j => some (j + 1)
    | none => if c = '.' then some 0 else none

/-- Path.suffix.lower() (src/organizer.py line 145): the lowercased final
dot-suffix of a name; empty when the dot is leading, trailing, or
absent. -/
def pySuffixLower (name : String) : String :=
  match lastDotIdx name.data with
  | none => ""
  | some i =>
    if 0 < i ∧ i < name.data.length - 1 then
      String.mk ((name.data.drop i).map toLowerChar)
    else ""

/-- Item: the record the scanner builds for each discovered entry
(src/organizer.py lines 139-149); extension is set only for files and
empty for folders. -/
structure Item where
  id : Nat
  name : String
  kind : EntryKind
  extension : String
deriving DecidableEq

/-- Classification: one oracle result record with the three required
JSON-schema fields id, name, category. -/
structure Classification where
  id : Nat
  name : String
  category : String
deriving DecidableEq

/-- Abstract classification oracle: the behavior of
get_ai_categories_batch (src/organizer.py lines 53-119).  The network
call is opaque; the except-branch of the source already collapses every
failure into an empty result list, so an oracle is a total function from
a batch to a list of classifications. -/
abbrev Oracle := List Item → List Classification

/-- RelocationOutcome statuses matching the log messages of move_item:
skippedUnknownId for a dangling id, failedSelfContain for the
self-containment guard, failedError for a caught filesystem exception,
success otherwise. -/
inductive Outcome where
  | success (src dst : FsPath) (category : String) : Outcome
  | skippedUnknownId : Outcome
  | failedSelfContain : Outcome
  | failedError (msg : String) : Outcome
deriving DecidableEq

/-! ## Directory scanner -/

/-- name.startswith('.') (src/organizer.py line 136). -/
def isHiddenName (n : String) : Bool :=
  match n.data with
  | [] => false
  | c :: _ => decide (c = '.')

/-- Whether the entry's own name (its last segment) starts with a dot. -/
def isHiddenPath (p : FsPath) : Bool := isHiddenName (p.getLastD "")

/-- The scanning loop of get_items_to_organize (src/organizer.py lines
135-152): walk the entries in traversal order, skip entries whose own
name starts with a dot, and give every remaining entry the next id; files
and folders go to separate lists, and both are recorded in the shared
location map.  In this model every entry is a file or a directory, so the
unconditional map insertion of the source coincides with inserting in the
two branches. -/
def scanEntries : Nat → List (FsPath × EntryKind) →
    List Item × List Item × List (Nat × FsPath)
  | _, [] => ([], [], [])
  | i, (p, k) :: rest =>
    if isHiddenPath p then scanEntries i rest
    else
      let r := scanEntries (i + 1) rest
      match k with
      | EntryKind.file =>
        (⟨i, p.getLastD "", EntryKind.file, pySuffixLower (p.getLastD "")⟩ :: r.1,
          r.2.1, (i, p) :: r.2.2)
      | EntryKind.dir =>
        (r.1, ⟨i, p.getLastD "", EntryKind.dir, ""⟩ :: r.2.1, (i, p) :: r.2.2)

/-- get_items_to_organize (src/organizer.py lines 121-155) applied to a
valid root directory: returns the files list, the folders list, and the
id-to-path map. -/
def get_items_to_organize (fs : Fs) :
    List Item × List Item × List (Nat × FsPath) :=
  scanEntries 0 fs.entries

/-- The number of entries whose own name does not start with a dot. -/
def visibleCount (es : List (FsPath × EntryKind)) : Nat :=
  (es.filter (fun e => !isHiddenPath e.1)).length

/-! ## Classification batcher -/

/-- The consecutive slices items[i:i+B] taken by the loop
for i in range(0, len(items), B) of src/organizer.py lines 170-171. -/
def chunksOfGo {α : Type} (B : Nat) : Nat → List α → List (List α)
  | _, [] => []
  | 0, _ :: _ => []
  | fuel + 1, x :: xs =>
    if B = 0 then []
    else (x :: xs).take B :: chunksOfGo B fuel ((x :: xs).drop B)

/-- The slicing loop, started with enough fuel to cover the whole list;
each step consumes at least one element, so the fuel never runs out. -/
def chunksOf {α : Type} (B : Nat) (l : List α) : List (List α) :=
  chunksOfGo B l.length l

/-- get_item_categories (src/organizer.py lines 157-183) as called without
a progress callback: an empty input short-circuits; otherwise slices of at
most B items are sent to the oracle in order, non-empty per-batch results
are appended, and an overall empty aggregate is returned as the empty
list. -/
def get_item_categories (oracle : Oracle) (items : List Item) (B : Nat) :
    List Classification :=
  if items.isEmpty then []
  else
    let all := (chunksOf B items).foldl
      (fun acc batch =>
        if (oracle batch).isEmpty then acc else acc ++ oracle batch) []
    if all.isEmpty then [] else all

/-! ## Relocation executor -/

/-- dict.get on the id-to-path map (src/organizer.py line 194). -/
def lookupId : List (Nat × FsPath) → Nat → Option FsPath
  | [], _ => none
  | (k, v) :: rest, i => if k = i then some v else lookupId rest i

/-- The path segments a sanitized category contributes below the root:
source_path / category splits the slash-joined category into nested
directories. -/
def categoryPath (category : String) : FsPath :=
  (splitOnChar '/' category.data).map (fun l => String.mk l)

/-- The sanitized category of a classification
(src/organizer.py line 193). -/
def sanitizedCategory (c : Classification) : String :=
  String.mk (sanitize_foldername c.category.data)

/-- dest_dir = source_path / category (src/organizer.py line 202),
relative to the root. -/
def destDirOf (c : Classification) : FsPath :=
  categoryPath (sanitizedCategory c)

/-- new_item_path = dest_dir / item_path.name
(src/organizer.py line 205). -/
def destPathOf (c : Classification) (item_path : FsPath) : FsPath :=
  destDirOf c ++ [item_path.getLastD ""]

/-- move_item (src/organizer.py lines 185-224): look up the source path of
the classified item (skip with a warning on a dangling id), sanitize the
category, create the destination category directory with its parents,
refuse to move a directory into itself, otherwise move; a filesystem
error raised by mkdir or by the move is caught by the except-branch and
reported as a failed outcome, keeping the partial state reached. -/
def move_item (c : Classification) (item_path_map : List (Nat × FsPath))
    (fs : Fs) : Outcome × Fs :=
  match lookupId item_path_map c.id with
  | none => (Outcome.skippedUnknownId, fs)
  | some item_path =>
    match mkdirAll fs (destDirOf c) with
    | (fs1, some e) => (Outcome.failedError e, fs1)
    | (fs1, none) =>
      if isDirFs fs1 item_path ∧ item_path.isPrefixOf (destPathOf c item_path) then
        (Outcome.failedSelfContain, fs1)
      else
        match shutilMove fs1 item_path (destPathOf c item_path) with
        | (fs2, none) =>
          (Outcome.success item_path (destPathOf c item_path) (sanitizedCategory c), fs2)
        | (fs2, some e) => (Outcome.failedError e, fs2)

/-- The per-item relocation loop of main (src/organizer.py lines 242-243
and 248-249): fold move_item over the classification list, threading the
filesystem. -/
def runMoves (item_path_map : List (Nat × FsPath))
    (cs : List Classification) (fs : Fs) : Fs :=
  cs.foldl (fun st cl => (move_item cl item_path_map st).2) fs

/-! ## CLI entry point -/

/-- main (src/organizer.py lines 226-255): after argument parsing, scan
the root, categorize and move the files, then categorize and move the
folders; the ValueError raised for an invalid root is caught and logged,
after which main returns normally, so the interpreter exits with code 0
in every case.  The Boolean rootIsDir abstracts the
Path(source_dir).is_dir() test; the returned number is the process exit
code. -/
def cliMain (rootIsDir : Bool) (oracle : Oracle) (fs : Fs) (B : Nat) :
    Nat × Fs :=
  if rootIsDir then
    let scan := get_items_to_organize fs
    let fs1 := runMoves scan.2.2 (get_item_categories oracle scan.1 B) fs
    let fs2 := runMoves scan.2.2 (get_item_categories oracle scan.2.1 B) fs1
    (0, fs2)
  else (0, fs)

/-! ## Run controller (the worker of src/gui.py) -/

/-- The terminal phase of a worker run as reported through its signals:
Organization complete, Organization cancelled, or the error signal from
an exception escaping the try-block. -/
inductive WPhase where
  | complete : WPhase
  | cancelled : WPhase
  | errored : WPhase
deriving DecidableEq

/-- Result of one classify-and-move block of the worker: errored when the
progress callback raised, stopped when the flag check directly after
classification returned from the run, proceed otherwise (carrying the
filesystem, the processed-items counter, and the next poll index). -/
inductive PhaseResult where
  | errored : PhaseResult
  | stopped (fs : Fs) (moved : Nat) : PhaseResult
  | proceed (fs : Fs) (moved : Nat) (poll : Nat) : PhaseResult
deriving DecidableEq

/-- The cancellation flag as a monotone stream of reads: Worker.cancel
only ever sets the flag, so the i-th read is true exactly when the flag
was set before read index t.  Successive reads use successive indices. -/
def cancelFrom (t : Nat) : Nat → Bool := fun i => decide (t ≤ i)

/-- The batch loop of get_item_categories with the worker's progress
callback (src/organizer.py lines 170-177 driven by gui.py lines 58-64):
per batch, extend the aggregate with a non-empty oracle answer, then run
the callback, which raises when the cancellation flag is set — modelled
as returning none.  Modelled from the spec for the missing organizer
variant: gui.py imports an organizer with a debug_skip_api keyword that
is not under src/; per spec section 4.3 its batcher behaves as
src/organizer.py's get_item_categories, which is what is embedded. -/
def classifyGo (oracle : Oracle) (cancel : Nat → Bool) :
    List (List Item) → List Classification → Nat →
      Option (List Classification) × Nat
  | [], acc, poll => (some acc, poll)
  | batch :: rest, acc, poll =>
    let acc2 := if (oracle batch).isEmpty then acc else acc ++ oracle batch
    if cancel poll then (none, poll + 1)
    else classifyGo oracle cancel rest acc2 (poll + 1)

/-- get_item_categories as invoked by the worker, with the raising
progress callback threaded through the poll counter. -/
def get_item_categories_cb (oracle : Oracle) (cancel : Nat → Bool)
    (items : List Item) (B : Nat) (poll : Nat) :
    Option (List Classification) × Nat :=
  if items.isEmpty then (some [], poll)
  else
    match classifyGo oracle cancel (chunksOf B items) [] poll with
    | (none, poll2) => (none, poll2)
    | (some all, poll2) => (some (if all.isEmpty then [] else all), poll2)

/-- The worker's move loop (gui.py lines 74-80 and 106-112): before each
move the cancellation flag is read, and observing it set breaks out of
the loop; otherwise move_item runs and the processed counter
increments.  Returns the filesystem, the counter, and the next poll
index. -/
def moveLoopW (cancel : Nat → Bool) (m : List (Nat × FsPath)) :
    List Classification → Fs → Nat → Nat → Fs × Nat × Nat
  | [], fs, moved, poll => (fs, moved, poll)
  | cl :: rest, fs, moved, poll =>
    if cancel poll then (fs, moved, poll + 1)
    else moveLoopW cancel m rest (move_item cl m fs).2 (moved + 1) (poll + 1)

/-- One classify-and-move block of Worker.run: the files block of gui.py
lines 55-80 and, identically shaped, the folders block of lines 87-112.
When the item list is nonempty: classify with the raising callback, read
the flag once (line 66 / 98, returning from the run when set), and when
classifications exist run the move loop with a flag read before every
move.  The flag reads of lines 82 and 114 after each block belong to the
caller, workerRun. -/
def workerPhase (oracle : Oracle) (cancel : Nat → Bool)
    (m : List (Nat × FsPath)) (items : List Item) (fs : Fs)
    (moved poll : Nat) : PhaseResult :=
  if items.isEmpty then PhaseResult.proceed fs moved poll
  else
    match get_item_categories_cb oracle cancel items 64 poll with
    | (none, _) => PhaseResult.errored
    | (some cats, poll1) =>
      if cancel poll1 then PhaseResult.stopped fs moved
      else
        if cats.isEmpty then PhaseResult.proceed fs moved (poll1 + 1)
        else
          match moveLoopW cancel m cats fs moved (poll1 + 1) with
          | (fs2, moved2, poll2) => PhaseResult.proceed fs2 moved2 poll2

/-- Worker.run (src/gui.py lines 35-122) on a valid root directory: scan,
read the flag (line 40, poll index 0), finish directly when nothing is
found, then the files block, the flag read of line 82, the folders
block, the flag read of line 114, and the final phase: cancelled when
the last read observes the flag, complete otherwise.  Returns the phase,
the filesystem, and the number of move_item calls performed. -/
def workerRun (oracle : Oracle) (cancel : Nat → Bool) (fs : Fs) :
    WPhase × Fs × Nat :=
  if cancel 0 then (WPhase.cancelled, fs, 0)
  else if (get_items_to_organize fs).1.length
      + (get_items_to_organize fs).2.1.length = 0 then
    (WPhase.complete, fs, 0)
  else
    match workerPhase oracle cancel (get_items_to_organize fs).2.2
        (get_items_to_organize fs).1 fs 0 1 with
    | PhaseResult.errored => (WPhase.errored, fs, 0)
    | PhaseResult.stopped fs1 moved1 => (WPhase.cancelled, fs1, moved1)
    | PhaseResult.proceed fs1 moved1 poll1 =>
      if cancel poll1 then (WPhase.cancelled, fs1, moved1)
      else
        match workerPhase oracle cancel (get_items_to_organize fs).2.2
            (get_items_to_organize fs).2.1 fs1 moved1 (poll1 + 1) with
        | PhaseResult.errored => (WPhase.errored, fs1, moved1)
        | PhaseResult.stopped fs2 moved2 => (WPhase.cancelled, fs2, moved2)
        | PhaseResult.proceed fs2 moved2 poll2 =>
          if cancel poll2 then (WPhase.cancelled, fs2, moved2)
          else (WPhase.complete, fs2, moved2)


/-! ### Character-level lemmas -/

theorem char_eq_of_toNat_eq {c d : Char} (h : c.toNat = d.toNat) : c = d :=
  Char.ext (UInt32.ext h)

theorem toNat_ofNat_of_lt {n : Nat} (h : n < 55296) : (Char.ofNat n).toNat = n := by
  have hv : n.isValidChar := Or.inl h
  simp [Char.ofNat, hv, Char.ofNatAux, Char.toNat]
  rfl

theorem toUpperChar_toNat (c : Char) :
    ((toUpperChar c).toNat = c.toNat - 32 ∧ 97 ≤ c.toNat ∧ c.toNat ≤ 122) ∨
    (toUpperChar c = c ∧ ¬(97 ≤ c.toNat ∧ c.toNat ≤ 122)) := by
  unfold toUpperChar
  split_ifs with h
  · exact Or.inl ⟨toNat_ofNat_of_lt (by omega), h.1, h.2⟩
  · exact Or.inr ⟨rfl, h⟩

theorem toLowerChar_toNat (c : Char) :
    ((toLowerChar c).toNat = c.toNat + 32 ∧ 65 ≤ c.toNat ∧ c.toNat ≤ 90) ∨
    (toLowerChar c = c ∧ ¬(65 ≤ c.toNat ∧ c.toNat ≤ 90)) := by
  unfold toLowerChar
  split_ifs with h
  · exact Or.inl ⟨toNat_ofNat_of_lt (by omega), h.1, h.2⟩
  · exact Or.inr ⟨rfl, h⟩

theorem toUpperChar_eq_self {c : Char} (h : ¬(97 ≤ c.toNat ∧ c.toNat ≤ 122)) :
    toUpperChar c = c := by
  unfold toUpperChar
  rw [if_neg h]

theorem toLowerChar_eq_self {c : Char} (h : ¬(65 ≤ c.toNat ∧ c.toNat ≤ 90)) :
    toLowerChar c = c := by
  unfold toLowerChar
  rw [if_neg h]

theorem toUpperChar_toUpperChar (c : Char) :
    toUpperChar (toUpperChar c) = toUpperChar c := by
  rcases toUpperChar_toNat c with ⟨h1, h2, h3⟩ | ⟨h1, _⟩
  · exact toUpperChar_eq_self (by omega)
  · rw [h1]
    exact h1

theorem toLowerChar_toLowerChar (c : Char) :
    toLowerChar (toLowerChar c) = toLowerChar c := by
  rcases toLowerChar_toNat c with ⟨h1, h2, h3⟩ | ⟨h1, _⟩
  · exact toLowerChar_eq_self (by omega)
  · rw [h1]
    exact h1

theorem goodChar_iff {c : Char} : goodChar c = true ↔
    ¬(c.toNat = 92 ∨ c.toNat = 47 ∨ c.toNat = 58 ∨ c.toNat = 42 ∨
      c.toNat = 63 ∨ c.toNat = 34 ∨ c.toNat = 60 ∨ c.toNat = 62 ∨ c.toNat = 124) ∧
    ¬(c.toNat = 32 ∨ c.toNat = 9 ∨ c.toNat = 10 ∨ c.toNat = 13 ∨
      c.toNat = 11 ∨ c.toNat = 12) := by
  simp [goodChar, isIllegal, isSpaceChar]

theorem goodChar_toUpperChar {c : Char} (h : goodChar c = true) :
    goodChar (toUpperChar c) = true := by
  rcases toUpperChar_toNat c with ⟨h1, h2, h3⟩ | ⟨h1, _⟩
  · rw [goodChar_iff]
    omega
  · rwa [h1]

theorem goodChar_toLowerChar {c : Char} (h : goodChar c = true) :
    goodChar (toLowerChar c) = true := by
  rcases toLowerChar_toNat c with ⟨h1, h2, h3⟩ | ⟨h1, _⟩
  · rw [goodChar_iff]
    omega
  · rwa [h1]

theorem toUpperChar_ne_underscore {c : Char} (h : c ≠ '_') :
    toUpperChar c ≠ '_' := by
  rcases toUpperChar_toNat c with ⟨h1, h2, h3⟩ | ⟨h1, _⟩
  · intro he
    rw [he] at h1
    have h95 : ('_' : Char).toNat = 95 := rfl
    omega
  · rw [h1]
    exact h

theorem toLowerChar_ne_underscore {c : Char} (h : c ≠ '_') :
    toLowerChar c ≠ '_' := by
  rcases toLowerChar_toNat c with ⟨h1, h2, h3⟩ | ⟨h1, _⟩
  · intro he
    rw [he] at h1
    have h95 : ('_' : Char).toNat = 95 := rfl
    omega
  · rw [h1]
    exact h

theorem ne_slash_of_goodChar {c : Char} (h : goodChar c = true) : c ≠ '/' := by
  rw [goodChar_iff] at h
  intro he
  subst he
  exact h.1 (by decide)

theorem not_space_of_goodChar {c : Char} (h : goodChar c = true) :
    isSpaceChar c = false := by
  simp only [goodChar, Bool.and_eq_true, Bool.not_eq_true'] at h
  exact h.2

theorem not_illegal_of_goodChar {c : Char} (h : goodChar c = true) :
    isIllegal c = false := by
  simp only [goodChar, Bool.and_eq_true, Bool.not_eq_true'] at h
  exact h.1

theorem goodChar_of_parts {c : Char} (h1 : isIllegal c = false)
    (h2 : isSpaceChar c = false) : goodChar c = true := by
  simp [goodChar, h1, h2]

/-! ### Split and join lemmas -/

theorem splitOnChar_ne_nil (sep : Char) (l : List Char) :
    splitOnChar sep l ≠ [] := by
  cases l with
  | nil => simp [splitOnChar]
  | cons c cs =>
    unfold splitOnChar
    cases h : splitOnChar sep cs with
    | nil => simp
    | cons g gs =>
      by_cases hc : c = sep <;> simp [hc]

theorem splitOnChar_cons_eq (sep c : Char) (cs : List Char) (g : List Char)
    (gs : List (List Char)) (h : splitOnChar sep cs = g :: gs) :
    splitOnChar sep (c :: cs) =
      if c = sep then [] :: g :: gs else (c :: g) :: gs := by
  unfold splitOnChar
  rw [h]

theorem joinWith_splitOnChar (sep : Char) (l : List Char) :
    joinWith sep (splitOnChar sep l) = l := by
  induction l with
  | nil => rfl
  | cons c cs ih =>
    unfold splitOnChar
    cases h : splitOnChar sep cs with
    | nil => exact absurd h (splitOnChar_ne_nil sep cs)
    | cons g gs =>
      rw [h] at ih
      by_cases hc : c = sep
      · subst hc
        simp only [if_pos rfl]
        cases gs with
        | nil => simpa [joinWith] using ih
        | cons g2 gs2 => simpa [joinWith] using ih
      · simp only [if_neg hc]
        cases gs with
        | nil =>
          simp only [joinWith] at ih ⊢
          rw [ih]
        | cons g2 gs2 =>
          simp only [joinWith] at ih ⊢
          simpa using ih

theorem mem_of_mem_splitOnChar {sep : Char} {l : List Char} {g : List Char}
    (hg : g ∈ splitOnChar sep l) : ∀ c ∈ g, c ∈ l ∧ c ≠ sep := by
  induction l generalizing g with
  | nil =>
    simp only [splitOnChar, List.mem_singleton] at hg
    subst hg
    intro c hc
    cases hc
  | cons a as ih =>
    cases h : splitOnChar sep as with
    | nil => exact absurd h (splitOnChar_ne_nil sep as)
    | cons g0 gs0 =>
      rw [splitOnChar_cons_eq sep a as g0 gs0 h] at hg
      by_cases ha : a = sep
      · rw [if_pos ha] at hg
        rcases List.mem_cons.mp hg with hg1 | hg2
        · subst hg1
          intro c hc
          cases hc
        · intro c hc
          have := ih (by rw [h]; exact hg2) c hc
          exact ⟨List.mem_cons_of_mem a this.1, this.2⟩
      · rw [if_neg ha] at hg
        rcases List.mem_cons.mp hg with hg1 | hg2
        · subst hg1
          intro c hc
          rcases List.mem_cons.mp hc with hc1 | hc2
          · subst hc1
            exact ⟨List.mem_cons_self c as, ha⟩
          · have := ih (by rw [h]; exact List.mem_cons_self g0 gs0) c hc2
            exact ⟨List.mem_cons_of_mem a this.1, this.2⟩
        · intro c hc
          have := ih (by rw [h]; exact List.mem_cons_of_mem g0 hg2) c hc
          exact ⟨List.mem_cons_of_mem a this.1, this.2⟩

theorem splitOnChar_sepfree {sep : Char} {g : List Char}
    (h : ∀ c ∈ g, c ≠ sep) : splitOnChar sep g = [g] := by
  induction g with
  | nil => rfl
  | cons c cs ih =>
    have hc : c ≠ sep := h c (List.mem_cons_self c cs)
    have ih2 := ih (fun d hd => h d (List.mem_cons_of_mem c hd))
    rw [splitOnChar_cons_eq sep c cs cs [] ih2, if_neg hc]

theorem splitOnChar_append_sep {sep : Char} {g r : List Char}
    (h : ∀ c ∈ g, c ≠ sep) :
    splitOnChar sep (g ++ sep :: r) = g :: splitOnChar sep r := by
  induction g with
  | nil =>
    simp only [List.nil_append]
    cases hr : splitOnChar sep r with
    | nil => exact absurd hr (splitOnChar_ne_nil sep r)
    | cons g0 gs0 =>
      rw [splitOnChar_cons_eq sep sep r g0 gs0 hr, if_pos rfl]
  | cons c cs ih =>
    have hc : c ≠ sep := h c (List.mem_cons_self c cs)
    have ih2 := ih (fun d hd => h d (List.mem_cons_of_mem c hd))
    rw [List.cons_append,
      splitOnChar_cons_eq sep c (cs ++ sep :: r) cs (splitOnChar sep r) ih2,
      if_neg hc]

theorem splitOnChar_joinWith {sep : Char} {l : List (List Char)}
    (hne : l ≠ []) (hsf : ∀ g ∈ l, ∀ c ∈ g, c ≠ sep) :
    splitOnChar sep (joinWith sep l) = l := by
  induction l with
  | nil => exact absurd rfl hne
  | cons g gs ih =>
    cases gs with
    | nil =>
      simp only [joinWith]
      exact splitOnChar_sepfree (hsf g (List.mem_cons_self g []))
    | cons g2 gs2 =>
      have hstep : joinWith sep (g :: g2 :: gs2) = g ++ sep :: joinWith sep (g2 :: gs2) := rfl
      rw [hstep, splitOnChar_append_sep (hsf g (List.mem_cons_self g _)),
        ih (by simp) (fun h2 hh2 c hc => hsf h2 (List.mem_cons_of_mem g hh2) c hc)]

theorem mem_joinWith {sep : Char} {l : List (List Char)} {c : Char}
    (hc : c ∈ joinWith sep l) : c = sep ∨ ∃ g ∈ l, c ∈ g := by
  induction l with
  | nil => cases hc
  | cons g gs ih =>
    cases gs with
    | nil =>
      simp only [joinWith] at hc
      exact Or.inr ⟨g, List.mem_cons_self g [], hc⟩
    | cons g2 gs2 =>
      simp only [joinWith, List.mem_append, List.mem_cons] at hc
      rcases hc with h1 | h2 | h3
      · exact Or.inr ⟨g, List.mem_cons_self g _, h1⟩
      · exact Or.inl h2
      · rcases ih h3 with h4 | ⟨g0, hg0, hcg0⟩
        · exact Or.inl h4
        · exact Or.inr ⟨g0, List.mem_cons_of_mem g hg0, hcg0⟩

theorem joinWith_ne_nil {sep : Char} {g : List Char} {gs : List (List Char)}
    (h : g ≠ []) : joinWith sep (g :: gs) ≠ [] := by
  cases gs with
  | nil => simpa [joinWith] using h
  | cons g2 gs2 =>
    simp only [joinWith]
    intro he
    exact h (List.append_eq_nil.mp he).1

/-! ### Whitespace collapsing and stripping lemmas -/

theorem collapseWsAux_cons_space_true {a : Char} {as : List Char}
    (hs : isSpaceChar a = true) :
    collapseWsAux true (a :: as) = collapseWsAux true as := by
  simp [collapseWsAux, hs]

theorem collapseWsAux_cons_space_false {a : Char} {as : List Char}
    (hs : isSpaceChar a = true) :
    collapseWsAux false (a :: as) = '_' :: collapseWsAux true as := by
  simp [collapseWsAux, hs]

theorem collapseWsAux_cons_nonspace {b : Bool} {a : Char} {as : List Char}
    (hs : isSpaceChar a = false) :
    collapseWsAux b (a :: as) = a :: collapseWsAux false as := by
  simp [collapseWsAux, hs]

theorem mem_collapseWsAux {l : List Char} {c : Char} :
    ∀ {b : Bool}, c ∈ collapseWsAux b l →
    c = '_' ∨ (c ∈ l ∧ isSpaceChar c = false) := by
  induction l with
  | nil =>
    intro b hc
    cases hc
  | cons a as ih =>
    intro b hc
    by_cases hs : isSpaceChar a = true
    · cases b with
      | true =>
        rw [collapseWsAux_cons_space_true hs] at hc
        rcases ih hc with h1 | ⟨h2, h3⟩
        · exact Or.inl h1
        · exact Or.inr ⟨List.mem_cons_of_mem a h2, h3⟩
      | false =>
        rw [collapseWsAux_cons_space_false hs] at hc
        rcases List.mem_cons.mp hc with h1 | h2
        · exact Or.inl h1
        · rcases ih h2 with h3 | ⟨h4, h5⟩
          · exact Or.inl h3
          · exact Or.inr ⟨List.mem_cons_of_mem a h4, h5⟩
    · have hs' : isSpaceChar a = false := by
        cases h : isSpaceChar a
        · rfl
        · exact absurd h hs
      rw [collapseWsAux_cons_nonspace hs'] at hc
      rcases List.mem_cons.mp hc with h1 | h2
      · subst h1
        exact Or.inr ⟨List.mem_cons_self c as, hs'⟩
      · rcases ih h2 with h3 | ⟨h4, h5⟩
        · exact Or.inl h3
        · exact Or.inr ⟨List.mem_cons_of_mem a h4, h5⟩

theorem collapseWsAux_of_nospace {l : List Char}
    (h : ∀ c ∈ l, isSpaceChar c = false) : ∀ b, collapseWsAux b l = l := by
  induction l with
  | nil =>
    intro b
    rfl
  | cons a as ih =>
    intro b
    rw [collapseWsAux_cons_nonspace (h a (List.mem_cons_self a as)),
      ih (fun c hc => h c (List.mem_cons_of_mem a hc)) false]

theorem dropWhile_eq_self_of_false {p : Char → Bool} {l : List Char}
    (h : ∀ c ∈ l, p c = false) : l.dropWhile p = l := by
  cases l with
  | nil => rfl
  | cons a as =>
    rw [List.dropWhile_cons, if_neg (by simp [h a (List.mem_cons_self a as)])]

theorem stripWs_of_nospace {l : List Char}
    (h : ∀ c ∈ l, isSpaceChar c = false) : stripWs l = l := by
  unfold stripWs
  rw [dropWhile_eq_self_of_false h,
    dropWhile_eq_self_of_false (fun c hc => h c (List.mem_reverse.mp hc)),
    List.reverse_reverse]

theorem mem_stripWs {l : List Char} {c : Char} (hc : c ∈ stripWs l) : c ∈ l := by
  unfold stripWs at hc
  rw [List.mem_reverse] at hc
  have h1 := (List.dropWhile_sublist (l := (l.dropWhile fun c => isSpaceChar c).reverse)
    (p := fun c => isSpaceChar c)).mem hc
  rw [List.mem_reverse] at h1
  exact (List.dropWhile_sublist (l := l) (p := fun c => isSpaceChar c)).mem h1

theorem mem_removeIllegal {l : List Char} {c : Char} (hc : c ∈ removeIllegal l) :
    isIllegal c = false ∧ c ∈ l := by
  rw [removeIllegal, List.mem_filter] at hc
  refine ⟨?_, hc.1⟩
  have := hc.2
  simpa using this

theorem removeIllegal_of_noillegal {l : List Char}
    (h : ∀ c ∈ l, isIllegal c = false) : removeIllegal l = l := by
  rw [removeIllegal, List.filter_eq_self]
  intro c hc
  simp [h c hc]

/-! ### Capitalization lemmas -/

theorem mem_pyCapitalize {w : List Char} {c : Char} (hc : c ∈ pyCapitalize w) :
    ∃ d ∈ w, c = toUpperChar d ∨ c = toLowerChar d := by
  cases w with
  | nil => cases hc
  | cons a as =>
    simp only [pyCapitalize, List.mem_cons, List.mem_map] at hc
    rcases hc with h1 | ⟨d, hd, hdc⟩
    · exact ⟨a, List.mem_cons_self a as, Or.inl h1⟩
    · exact ⟨d, List.mem_cons_of_mem a hd, Or.inr hdc.symm⟩

theorem pyCapitalize_pyCapitalize (w : List Char) :
    pyCapitalize (pyCapitalize w) = pyCapitalize w := by
  cases w with
  | nil => rfl
  | cons a as =>
    simp only [pyCapitalize, toUpperChar_toUpperChar, List.map_map, List.cons.injEq,
      true_and]
    have hco : toLowerChar ∘ toLowerChar = toLowerChar :=
      funext toLowerChar_toLowerChar
    rw [hco]

/-! ### Sanitizer segment properties -/

theorem sanitizePart_ne_nil (part : List Char) : sanitizePart part ≠ [] := by
  simp only [sanitizePart]
  split_ifs with h
  · decide
  · exact h

theorem mem_sanitizePart_good {part : List Char} {c : Char}
    (hc : c ∈ sanitizePart part) : goodChar c = true := by
  simp only [sanitizePart] at hc
  split_ifs at hc with h
  · simp only [miscName, List.mem_cons, List.mem_singleton, List.not_mem_nil,
      or_false] at hc
    rcases hc with rfl | rfl | rfl | rfl
    all_goals decide
  · rcases mem_joinWith hc with rfl | ⟨g, hg, hcg⟩
    · decide
    · rcases List.mem_map.mp hg with ⟨g0, hg0, rfl⟩
      rcases mem_pyCapitalize hcg with ⟨d, hd, hdc⟩
      have hdp2 := (mem_of_mem_splitOnChar hg0 d hd).1
      have hdgood : goodChar d = true := by
        rcases mem_collapseWsAux hdp2 with rfl | ⟨hmem, hns⟩
        · decide
        · have hmem2 := mem_stripWs hmem
          exact goodChar_of_parts (mem_removeIllegal hmem2).1 hns
      rcases hdc with rfl | rfl
      · exact goodChar_toUpperChar hdgood
      · exact goodChar_toLowerChar hdgood

theorem sanitizePart_sanitizePart (part : List Char) :
    sanitizePart (sanitizePart part) = sanitizePart part := by
  by_cases h : joinWith '_'
      ((splitOnChar '_' (collapseWs (stripWs (removeIllegal part)))).map pyCapitalize) = []
  · have hq : sanitizePart part = miscName := by
      simp only [sanitizePart]
      rw [if_pos h]
    rw [hq]
    decide
  · have hq : sanitizePart part = joinWith '_'
        ((splitOnChar '_' (collapseWs (stripWs (removeIllegal part)))).map pyCapitalize) := by
      simp only [sanitizePart]
      rw [if_neg h]
    set caps := (splitOnChar '_' (collapseWs (stripWs (removeIllegal part)))).map pyCapitalize with hcaps
    have hgood : ∀ c ∈ joinWith '_' caps, goodChar c = true := by
      intro c hc
      exact mem_sanitizePart_good (hq ▸ hc)
    have h1 : removeIllegal (joinWith '_' caps) = joinWith '_' caps :=
      removeIllegal_of_noillegal (fun c hc => not_illegal_of_goodChar (hgood c hc))
    have h2 : stripWs (joinWith '_' caps) = joinWith '_' caps :=
      stripWs_of_nospace (fun c hc => not_space_of_goodChar (hgood c hc))
    have h3 : collapseWs (joinWith '_' caps) = joinWith '_' caps :=
      collapseWsAux_of_nospace (fun c hc => not_space_of_goodChar (hgood c hc)) false
    have hcaps_ne : caps ≠ [] := by
      rw [hcaps]
      intro he
      exact splitOnChar_ne_nil '_' _ (List.map_eq_nil_iff.mp he)
    have hsf : ∀ g ∈ caps, ∀ c ∈ g, c ≠ '_' := by
      intro g hg c hcg
      rw [hcaps] at hg
      rcases List.mem_map.mp hg with ⟨g0, hg0, rfl⟩
      rcases mem_pyCapitalize hcg with ⟨d, hd, hdc⟩
      have hdne : d ≠ '_' := (mem_of_mem_splitOnChar hg0 d hd).2
      rcases hdc with rfl | rfl
      · exact toUpperChar_ne_underscore hdne
      · exact toLowerChar_ne_underscore hdne
    have hsplit : splitOnChar '_' (joinWith '_' caps) = caps :=
      splitOnChar_joinWith hcaps_ne hsf
    have hmapfix : caps.map pyCapitalize = caps := by
      rw [hcaps, List.map_map]
      have hco : pyCapitalize ∘ pyCapitalize = pyCapitalize :=
        funext pyCapitalize_pyCapitalize
      rw [hco]
    have hne : joinWith '_' caps ≠ [] := hq ▸ sanitizePart_ne_nil part
    rw [hq]
    simp only [sanitizePart, h1, h2, h3, hsplit, hmapfix]
    rw [if_neg hne]

theorem splitOnChar_sanitize (s : List Char) :
    splitOnChar '/' (sanitize_foldername s) = (splitOnChar '/' s).map sanitizePart := by
  unfold sanitize_foldername
  apply splitOnChar_joinWith
  · intro he
    exact splitOnChar_ne_nil '/' s (List.map_eq_nil_iff.mp he)
  · intro g hg c hc
    rcases List.mem_map.mp hg with ⟨p, hp, rfl⟩
    exact ne_slash_of_goodChar (mem_sanitizePart_good hc)

/-! ### Claims about the sanitizer -/

/-- C2: for every input string, sanitize_foldername terminates (the
embedding is a total function, mirroring that the Python code raises no
exception) and returns a non-empty relative path, and every
slash-separated segment that is empty after removing the illegal
characters and stripping whitespace is replaced by the literal folder
name Misc. -/
theorem sanitize_total_nonempty_misc (s : List Char) :
    sanitize_foldername s ≠ [] ∧
    ∀ part ∈ splitOnChar '/' s, stripWs (removeIllegal part) = [] →
      sanitizePart part = miscName := by
  constructor
  · unfold sanitize_foldername
    cases h : splitOnChar '/' s with
    | nil => exact absurd h (splitOnChar_ne_nil '/' s)
    | cons g gs =>
      simp only [List.map_cons]
      exact joinWith_ne_nil (sanitizePart_ne_nil g)
  · intro part _ hstrip
    simp only [sanitizePart, hstrip]
    rfl

/-- C2 witness: on the concrete input a/? the result is non-empty and the
second segment, which strips to nothing, becomes Misc. -/
theorem sanitize_total_nonempty_misc_witness :
    sanitize_foldername ['a', '/', '?'] ≠ [] ∧ sanitizePart ['?'] = miscName :=
  ⟨(sanitize_total_nonempty_misc ['a', '/', '?']).1,
    (sanitize_total_nonempty_misc ['a', '/', '?']).2 ['?'] (by decide) (by decide)⟩

/-- C3 counterexample: sanitize keeps the hyphen of the input a-b, so the
output A-b neither matches the claimed regular expression nor equals
Misc. -/
theorem sanitize_wordPath_counterexample :
    ¬ (matchesWordPath (sanitize_foldername ['a', '-', 'b']) = true ∨
       sanitize_foldername ['a', '-', 'b'] = miscName) := by
  decide

/-- C3 amended: every slash-separated segment of the sanitizer output is
non-empty and contains neither an illegal filesystem character
(backslash / : * ? double-quote < > vertical-bar) nor whitespace; legal
punctuation such as a hyphen may remain. -/
theorem sanitize_segments_safe (s : List Char) :
    ∀ seg ∈ splitOnChar '/' (sanitize_foldername s),
      seg ≠ [] ∧ ∀ c ∈ seg, goodChar c = true := by
  intro seg hseg
  rw [splitOnChar_sanitize] at hseg
  rcases List.mem_map.mp hseg with ⟨p, _, rfl⟩
  exact ⟨sanitizePart_ne_nil p, fun _ hc => mem_sanitizePart_good hc⟩

/-- C3 amended witness: instantiated on the input a-b whose output segment
is A-b. -/
theorem sanitize_segments_safe_witness :
    (['A', '-', 'b'] : List Char) ≠ [] ∧ ∀ c ∈ (['A', '-', 'b'] : List Char),
      goodChar c = true :=
  sanitize_segments_safe ['a', '-', 'b'] ['A', '-', 'b'] (by decide)

/-- C7: sanitization is idempotent: sanitizing an already sanitized path
string returns it unchanged. -/
theorem map_sanitizePart_map_sanitizePart (l : List (List Char)) :
    (l.map sanitizePart).map sanitizePart = l.map sanitizePart := by
  induction l with
  | nil => rfl
  | cons g gs ih =>
    rw [List.map_cons, List.map_cons, sanitizePart_sanitizePart g, ih]

theorem sanitize_foldername_idem (s : List Char) :
    sanitize_foldername (sanitize_foldername s) = sanitize_foldername s := by
  have h1 : sanitize_foldername (sanitize_foldername s) =
      joinWith '/' ((splitOnChar '/' (sanitize_foldername s)).map sanitizePart) := rfl
  rw [h1, splitOnChar_sanitize, map_sanitizePart_map_sanitizePart]
  rfl

/-! ### Batcher lemmas -/

theorem chunksOfGo_fuel {α : Type} {B : Nat} (fuel : Nat) :
    ∀ (l : List α), l.length ≤ fuel → chunksOfGo B fuel l = chunksOf B l := by
  induction fuel using Nat.strong_induction_on with
  | _ fuel ih =>
    intro l hl
    cases l with
    | nil =>
      cases fuel with
      | zero => rfl
      | succ f => rfl
    | cons x xs =>
      cases fuel with
      | zero => simp at hl
      | succ f =>
        by_cases hB : B = 0
        · subst hB
          simp [chunksOfGo, chunksOf]
        · have hlen : ((x :: xs).drop B).length = xs.length + 1 - B := by
            rw [List.length_drop]
            simp
          simp only [List.length_cons] at hl
          have h1 : chunksOfGo B (f + 1) (x :: xs) =
              (x :: xs).take B :: chunksOfGo B f ((x :: xs).drop B) := by
            simp [chunksOfGo, hB]
          have h2 : chunksOf B (x :: xs) =
              (x :: xs).take B :: chunksOfGo B xs.length ((x :: xs).drop B) := by
            unfold chunksOf
            simp only [List.length_cons]
            simp [chunksOfGo, hB]
          rw [h1, h2, ih f (by omega) _ (by omega),
            ih xs.length (by omega) _ (by omega)]

theorem chunksOf_cons {α : Type} {B : Nat} (hB : B ≠ 0) (x : α) (xs : List α) :
    chunksOf B (x :: xs) =
      (x :: xs).take B :: chunksOf B ((x :: xs).drop B) := by
  have h2 : chunksOf B (x :: xs) =
      (x :: xs).take B :: chunksOfGo B xs.length ((x :: xs).drop B) := by
    unfold chunksOf
    simp only [List.length_cons]
    simp [chunksOfGo, hB]
  rw [h2, chunksOfGo_fuel xs.length _ (by rw [List.length_drop]; simp; omega)]

theorem chunksOf_join {α : Type} {B : Nat} (hB : B ≠ 0) :
    ∀ (n : Nat) (l : List α), l.length ≤ n → (chunksOf B l).flatten = l := by
  intro n
  induction n with
  | zero =>
    intro l hl
    rw [List.length_eq_zero.mp (Nat.le_zero.mp hl)]
    rfl
  | succ f ih =>
    intro l hl
    cases l with
    | nil => rfl
    | cons x xs =>
      rw [chunksOf_cons hB, List.flatten_cons,
        ih _ (by rw [List.length_drop]; simp only [List.length_cons] at hl ⊢; omega),
        List.take_append_drop]

theorem chunksOf_bounded {α : Type} {B : Nat} (hB : B ≠ 0) :
    ∀ (n : Nat) (l : List α), l.length ≤ n →
      ∀ c ∈ chunksOf B l, c.length ≤ B ∧ c ≠ [] := by
  intro n
  induction n with
  | zero =>
    intro l hl c hc
    rw [List.length_eq_zero.mp (Nat.le_zero.mp hl)] at hc
    cases hc
  | succ f ih =>
    intro l hl c hc
    cases l with
    | nil => cases hc
    | cons x xs =>
      rw [chunksOf_cons hB] at hc
      rcases List.mem_cons.mp hc with rfl | h2
      · constructor
        · rw [List.length_take]
          exact min_le_left B _
        · intro he
          rcases List.take_eq_nil_iff.mp he with h | h
          · exact hB h
          · cases h
      · exact ih _ (by rw [List.length_drop]; simp only [List.length_cons] at hl ⊢; omega) c h2

theorem chunksOf_length {α : Type} {B : Nat} (hB : 0 < B) :
    ∀ (n : Nat) (l : List α), l.length ≤ n →
      (chunksOf B l).length = (l.length + B - 1) / B := by
  intro n
  induction n with
  | zero =>
    intro l hl
    rw [List.length_eq_zero.mp (Nat.le_zero.mp hl)]
    simp [chunksOf, chunksOfGo]
    exact (Nat.div_eq_of_lt (by omega)).symm
  | succ f ih =>
    intro l hl
    cases l with
    | nil =>
      simp [chunksOf, chunksOfGo]
      exact (Nat.div_eq_of_lt (by omega)).symm
    | cons x xs =>
      rw [chunksOf_cons (by omega), List.length_cons,
        ih _ (by rw [List.length_drop]; simp only [List.length_cons] at hl ⊢; omega)]
      rw [List.length_drop, List.length_cons]
      have hL : 1 ≤ xs.length + 1 := by omega
      rw [show xs.length + 1 + B - 1 = (xs.length + 1 - 1) + B by omega,
        Nat.add_div_right _ hB]
      congr 1
      by_cases hcase : B ≤ xs.length + 1
      · congr 1
        omega
      · rw [show xs.length + 1 - B = 0 by omega]
        rw [Nat.div_eq_of_lt (by omega), Nat.div_eq_of_lt (by omega)]

theorem foldl_extend_eq (oracle : Oracle) (chunks : List (List Item)) :
    ∀ (acc : List Classification),
      chunks.foldl (fun acc batch =>
        if (oracle batch).isEmpty then acc else acc ++ oracle batch) acc
      = acc ++ (chunks.map oracle).flatten := by
  induction chunks with
  | nil =>
    intro acc
    simp
  | cons c cs ih =>
    intro acc
    simp only [List.foldl_cons, List.map_cons, List.flatten_cons]
    have hacc : (if (oracle c).isEmpty = true then acc else acc ++ oracle c)
        = acc ++ oracle c := by
      by_cases h : (oracle c).isEmpty
      · rw [if_pos h, List.isEmpty_iff.mp h, List.append_nil]
      · rw [if_neg h]
    rw [hacc, ih (acc ++ oracle c), List.append_assoc]

/-! ### Claims about the batcher -/

/-- C4: for a nonempty item list and positive batch size B, the batcher
partitions the list into consecutive order-preserving slices of at most B
items each (their concatenation is the original list), the oracle is
invoked once per slice — hence exactly ceil(L/B) times, the result being
the concatenation of the per-slice oracle answers — and when the oracle
answers the empty list for every slice the aggregate result is empty; the
embedding is a total function, so no exception escapes. -/
theorem batcher_spec (oracle : Oracle) (items : List Item) (B : Nat)
    (hitems : items ≠ []) (hB : 0 < B) :
    (chunksOf B items).length = (items.length + B - 1) / B ∧
    (chunksOf B items).flatten = items ∧
    (∀ c ∈ chunksOf B items, c.length ≤ B ∧ c ≠ []) ∧
    get_item_categories oracle items B = ((chunksOf B items).map oracle).flatten ∧
    ((∀ c ∈ chunksOf B items, oracle c = []) →
      get_item_categories oracle items B = []) := by
  have hB0 : B ≠ 0 := by omega
  have hmain : get_item_categories oracle items B =
      ((chunksOf B items).map oracle).flatten := by
    unfold get_item_categories
    rw [if_neg (by simp [hitems])]
    rw [foldl_extend_eq oracle (chunksOf B items) []]
    simp only [List.nil_append]
    by_cases h : (((chunksOf B items).map oracle).flatten).isEmpty
    · rw [if_pos h, List.isEmpty_iff.mp h]
    · rw [if_neg (by simp [h])]
  refine ⟨chunksOf_length hB items.length items le_rfl,
    chunksOf_join hB0 items.length items le_rfl,
    chunksOf_bounded hB0 items.length items le_rfl, hmain, ?_⟩
  intro hall
  rw [hmain]
  rw [List.flatten_eq_nil_iff]
  intro l hl
  rcases List.mem_map.mp hl with ⟨cc, hcc, rfl⟩
  exact hall cc hcc

/-- C4 witness: three items in batches of two; with the constantly-empty
oracle the aggregate is empty. -/
theorem batcher_spec_witness :
    (chunksOf 2 [(⟨0, "a", EntryKind.file, ""⟩ : Item),
        ⟨1, "b", EntryKind.file, ""⟩, ⟨2, "c", EntryKind.file, ""⟩]).length
      = (3 + 2 - 1) / 2 ∧
    get_item_categories (fun _ => []) [⟨0, "a", EntryKind.file, ""⟩,
        ⟨1, "b", EntryKind.file, ""⟩, ⟨2, "c", EntryKind.file, ""⟩] 2 = [] :=
  ⟨(batcher_spec (fun _ => []) _ 2 (by decide) (by decide)).1,
    (batcher_spec (fun _ => []) _ 2 (by decide) (by decide)).2.2.2.2
      (fun _ _ => rfl)⟩


/-! ### Scanner lemmas -/

theorem scanEntries_spec (es : List (FsPath × EntryKind)) :
    ∀ (i : Nat),
      (scanEntries i es).1.length + (scanEntries i es).2.1.length
        = visibleCount es ∧
      (scanEntries i es).2.2.length = visibleCount es ∧
      (scanEntries i es).2.2.map Prod.fst = List.range' i (visibleCount es) ∧
      ∀ pr ∈ (scanEntries i es).2.2, isHiddenPath pr.2 = false := by
  induction es with
  | nil =>
    intro i
    refine ⟨rfl, rfl, rfl, ?_⟩
    intro pr hpr
    cases hpr
  | cons e rest ih =>
    intro i
    obtain ⟨p, k⟩ := e
    by_cases hh : isHiddenPath p = true
    · have h1 : scanEntries i ((p, k) :: rest) = scanEntries i rest := by
        simp [scanEntries, hh]
      have h2 : visibleCount ((p, k) :: rest) = visibleCount rest := by
        simp [visibleCount, hh]
      rw [h1, h2]
      exact ih i
    · have hh2 : isHiddenPath p = false := by
        cases h : isHiddenPath p
        · rfl
        · exact absurd h hh
      have h2 : visibleCount ((p, k) :: rest) = visibleCount rest + 1 := by
        simp [visibleCount, hh2]
      obtain ⟨ih1, ih2, ih3, ih4⟩ := ih (i + 1)
      cases k with
      | file =>
        have h1 : scanEntries i ((p, EntryKind.file) :: rest) =
            ((⟨i, p.getLastD "", EntryKind.file, pySuffixLower (p.getLastD "")⟩ : Item)
                :: (scanEntries (i + 1) rest).1,
              (scanEntries (i + 1) rest).2.1,
              (i, p) :: (scanEntries (i + 1) rest).2.2) := by
          simp [scanEntries, hh]
        rw [h1, h2]
        refine ⟨?_, ?_, ?_, ?_⟩
        · simp only [List.length_cons]
          omega
        · simp only [List.length_cons]
          omega
        · simp only [List.map_cons, ih3, List.range'_succ]
        · intro pr hpr
          rcases List.mem_cons.mp hpr with hpr1 | hpr2
          · rw [hpr1]
            exact hh2
          · exact ih4 pr hpr2
      | dir =>
        have h1 : scanEntries i ((p, EntryKind.dir) :: rest) =
            ((scanEntries (i + 1) rest).1,
              (⟨i, p.getLastD "", EntryKind.dir, ""⟩ : Item)
                :: (scanEntries (i + 1) rest).2.1,
              (i, p) :: (scanEntries (i + 1) rest).2.2) := by
          simp [scanEntries, hh]
        rw [h1, h2]
        refine ⟨?_, ?_, ?_, ?_⟩
        · simp only [List.length_cons]
          omega
        · simp only [List.length_cons]
          omega
        · simp only [List.map_cons, ih3, List.range'_succ]
        · intro pr hpr
          rcases List.mem_cons.mp hpr with hpr1 | hpr2
          · rw [hpr1]
            exact hh2
          · exact ih4 pr hpr2

/-! ### Claims about the scanner -/

/-- C6 counterexample: a hidden directory .git containing a file named
config; the scan includes the file beneath the hidden directory, because
only the entry's own name is tested for a leading dot, so "nor anything
beneath it" fails on the code. -/
theorem scan_hidden_descendant_counterexample :
    (get_items_to_organize
        ⟨[([".git"], EntryKind.dir), ([".git", "config"], EntryKind.file)]⟩).2.2
      = [(0, [".git", "config"])] ∧
    isHiddenPath [".git"] = true ∧
    ([".git"] : FsPath).isPrefixOf [".git", "config"] = true := by
  decide

/-- C6 amended: for any directory tree, scan returns exactly one item per
entry whose own name does not start with a dot — N such entries, split
between the files and folders lists — the location map has exactly N
entries whose ids are the integers 0..N-1 in discovery order, and no
entry whose own name starts with a dot is included; entries beneath a
hidden directory are still included when their own names do not start
with a dot. -/
theorem scan_spec (fs : Fs) :
    (get_items_to_organize fs).1.length + (get_items_to_organize fs).2.1.length
      = visibleCount fs.entries ∧
    (get_items_to_organize fs).2.2.length = visibleCount fs.entries ∧
    (get_items_to_organize fs).2.2.map Prod.fst
      = List.range (visibleCount fs.entries) ∧
    ∀ pr ∈ (get_items_to_organize fs).2.2, isHiddenPath pr.2 = false := by
  obtain ⟨h1, h2, h3, h4⟩ := scanEntries_spec fs.entries 0
  refine ⟨h1, h2, ?_, h4⟩
  rw [List.range_eq_range']
  exact h3

/-- C6 amended witness: a tree with one hidden and two visible entries;
the ids are 0 and 1 in discovery order and the included path a.txt is not
hidden. -/
theorem scan_spec_witness :
    (get_items_to_organize ⟨[(["a.txt"], EntryKind.file),
        ([".hidden"], EntryKind.file), (["Sub"], EntryKind.dir)]⟩).2.2.map Prod.fst
      = List.range (visibleCount [(["a.txt"], EntryKind.file),
        ([".hidden"], EntryKind.file), (["Sub"], EntryKind.dir)]) ∧
    isHiddenPath ["a.txt"] = false :=
  ⟨(scan_spec ⟨[(["a.txt"], EntryKind.file), ([".hidden"], EntryKind.file),
      (["Sub"], EntryKind.dir)]⟩).2.2.1,
    (scan_spec ⟨[(["a.txt"], EntryKind.file), ([".hidden"], EntryKind.file),
      (["Sub"], EntryKind.dir)]⟩).2.2.2 (0, ["a.txt"]) (by decide)⟩


/-! ### Executor lemmas -/

theorem isDirFs_iff {fs : Fs} {p : FsPath} :
    isDirFs fs p = true ↔ (p, EntryKind.dir) ∈ fs.entries := by
  simp [isDirFs]

theorem isDirFs_mono {fs fs2 : Fs} {p : FsPath}
    (hsub : ∀ en ∈ fs.entries, en ∈ fs2.entries) (h : isDirFs fs p = true) :
    isDirFs fs2 p = true := by
  rw [isDirFs_iff] at h ⊢
  exact hsub _ h

theorem mkdirOne_spec (fs : Fs) (p : FsPath) :
    (∃ new, (mkdirOne fs p).1.entries = fs.entries ++ new ∧
      ∀ e ∈ new, e = (p, EntryKind.dir)) ∧
    ((mkdirOne fs p).2 = none → isDirFs (mkdirOne fs p).1 p = true) := by
  unfold mkdirOne
  split_ifs with h1 h2
  · refine ⟨⟨[], by simp, by simp⟩, fun _ => h1⟩
  · refine ⟨⟨[], by simp, by simp⟩, ?_⟩
    intro hc
    simp at hc
  · refine ⟨⟨[(p, EntryKind.dir)], rfl, by simp⟩, ?_⟩
    intro _
    rw [isDirFs_iff]
    exact List.mem_append_right _ (by simp)

theorem mkdirAllGo_spec (qs : List FsPath) :
    ∀ (fs : Fs),
    (∃ new, (mkdirAllGo fs qs).1.entries = fs.entries ++ new ∧
      ∀ e ∈ new, e.2 = EntryKind.dir ∧ e.1 ∈ qs) ∧
    ((mkdirAllGo fs qs).2 = none →
      ∀ q ∈ qs, isDirFs (mkdirAllGo fs qs).1 q = true) := by
  induction qs with
  | nil =>
    intro fs
    refine ⟨⟨[], by rw [List.append_nil]; rfl, by simp⟩, ?_⟩
    intro _ q hq
    cases hq
  | cons q qs ih =>
    intro fs
    cases hm : mkdirOne fs q with
    | mk fs1 err =>
      obtain ⟨⟨new1, hnew1, hnew1all⟩, hone⟩ := mkdirOne_spec fs q
      rw [hm] at hnew1 hone
      cases err with
      | none =>
        have hstep : mkdirAllGo fs (q :: qs) = mkdirAllGo fs1 qs := by
          simp only [mkdirAllGo, hm]
        obtain ⟨⟨new2, hnew2, hnew2all⟩, hrest⟩ := ih fs1
        have hdq : isDirFs fs1 q = true := hone rfl
        refine ⟨⟨new1 ++ new2, ?_, ?_⟩, ?_⟩
        · rw [hstep, hnew2, hnew1, List.append_assoc]
        · intro e he
          rcases List.mem_append.mp he with he1 | he2
          · have := hnew1all e he1
            rw [this]
            exact ⟨rfl, List.mem_cons_self q qs⟩
          · have := hnew2all e he2
            exact ⟨this.1, List.mem_cons_of_mem q this.2⟩
        · intro hok r hr
          rw [hstep] at hok ⊢
          rcases List.mem_cons.mp hr with hr1 | hr2
          · subst hr1
            refine isDirFs_mono ?_ hdq
            intro en hen
            rw [hnew2]
            exact List.mem_append_left _ hen
          · exact hrest hok r hr2
      | some e =>
        have hstep : mkdirAllGo fs (q :: qs) = (fs1, some e) := by
          simp only [mkdirAllGo, hm]
        refine ⟨⟨new1, by rw [hstep]; exact hnew1, ?_⟩, ?_⟩
        · intro en hen
          have := hnew1all en hen
          rw [this]
          exact ⟨rfl, List.mem_cons_self q qs⟩
        · intro hok
          rw [hstep] at hok
          simp at hok

theorem ancestorsOf_isPre {p q : FsPath} (h : q ∈ ancestorsOf p) : q <+: p := by
  unfold ancestorsOf at h
  rcases List.mem_map.mp h with ⟨i, _, rfl⟩
  exact List.take_prefix _ _

theorem self_mem_ancestorsOf {p : FsPath} (h : p ≠ []) : p ∈ ancestorsOf p := by
  unfold ancestorsOf
  rw [List.mem_map]
  have hpos : 0 < p.length := List.length_pos.mpr h
  refine ⟨p.length - 1, ?_, ?_⟩
  · rw [List.mem_range]
    omega
  · rw [show p.length - 1 + 1 = p.length by omega, List.take_length]

theorem destDirOf_ne_nil (c : Classification) : destDirOf c ≠ [] := by
  unfold destDirOf categoryPath
  intro h
  exact splitOnChar_ne_nil '/' _ (List.map_eq_nil_iff.mp h)

theorem move_item_none_eq (c : Classification) (m : List (Nat × FsPath))
    (fs : Fs) (h : lookupId m c.id = none) :
    move_item c m fs = (Outcome.skippedUnknownId, fs) := by
  unfold move_item
  rw [h]

theorem move_item_some_eq (c : Classification) (m : List (Nat × FsPath))
    (fs : Fs) (ip : FsPath) (h : lookupId m c.id = some ip) :
    move_item c m fs =
      (match mkdirAll fs (destDirOf c) with
       | (fs1, some e) => (Outcome.failedError e, fs1)
       | (fs1, none) =>
         if isDirFs fs1 ip ∧ ip.isPrefixOf (destPathOf c ip) then
           (Outcome.failedSelfContain, fs1)
         else
           match shutilMove fs1 ip (destPathOf c ip) with
           | (fs2, none) =>
             (Outcome.success ip (destPathOf c ip) (sanitizedCategory c), fs2)
           | (fs2, some e) => (Outcome.failedError e, fs2)) := by
  unfold move_item
  rw [h]

/-! ### Claims about the relocation executor -/

/-- C5: a classification whose id is absent from the location map yields
the skipped outcome with the filesystem unchanged and no move attempted,
and the caller's relocation loop over the remaining classifications
continues exactly as if the dangling one were not there. -/
theorem move_item_unknown_id (c : Classification) (m : List (Nat × FsPath))
    (fs : Fs) (rest : List Classification) (h : lookupId m c.id = none) :
    move_item c m fs = (Outcome.skippedUnknownId, fs) ∧
    runMoves m (c :: rest) fs = runMoves m rest fs := by
  have h1 := move_item_none_eq c m fs h
  refine ⟨h1, ?_⟩
  unfold runMoves
  rw [List.foldl_cons, h1]

/-- C5 witness: id 5 is absent from a map that only knows id 0. -/
theorem move_item_unknown_id_witness :
    move_item ⟨5, "x", "Docs"⟩ [(0, ["a.txt"])] ⟨[(["a.txt"], EntryKind.file)]⟩
      = (Outcome.skippedUnknownId, ⟨[(["a.txt"], EntryKind.file)]⟩) ∧
    runMoves [(0, ["a.txt"])] [⟨5, "x", "Docs"⟩] ⟨[(["a.txt"], EntryKind.file)]⟩
      = runMoves [(0, ["a.txt"])] [] ⟨[(["a.txt"], EntryKind.file)]⟩ :=
  move_item_unknown_id ⟨5, "x", "Docs"⟩ [(0, ["a.txt"])]
    ⟨[(["a.txt"], EntryKind.file)]⟩ [] (by decide)

/-- C1 counterexample: the folder A classified as A/Sub satisfies the
claim's premises (source is a directory, computed destination A/Sub/A is
nested inside it), the outcome is the self-containment failure and no
move happens, but the source directory is not left unchanged: the
destination-directory creation that precedes the guard has created the
new directory A/Sub inside the source. -/
theorem move_item_self_containment_counterexample :
    isDirFs ⟨[(["A"], EntryKind.dir)]⟩ ["A"] = true ∧
    (["A"] : FsPath).isPrefixOf
      (destPathOf ⟨0, "A", "A/Sub"⟩ ["A"]) = true ∧
    (move_item ⟨0, "A", "A/Sub"⟩ [(0, ["A"])] ⟨[(["A"], EntryKind.dir)]⟩).1
      = Outcome.failedSelfContain ∧
    (move_item ⟨0, "A", "A/Sub"⟩ [(0, ["A"])] ⟨[(["A"], EntryKind.dir)]⟩).2.entries
      = [(["A"], EntryKind.dir), (["A", "Sub"], EntryKind.dir)] ∧
    ((["A", "Sub"], EntryKind.dir) ∉ (⟨[(["A"], EntryKind.dir)]⟩ : Fs).entries ∧
      (["A"] : FsPath).isPrefixOf ["A", "Sub"] = true) := by
  decide

/-- C1 amended: when the looked-up source item is a directory and the
computed destination is equal to or nested inside it, no move is ever
attempted and every pre-existing entry — the source directory and
everything beneath it included — stays in place with its kind; the
outcome is failed, and it is precisely the cannot-move-directory-into-
itself failure whenever the destination-directory creation succeeds
(otherwise the creation error is reported).  The filesystem afterwards
may additionally contain newly created directories along the destination
category path, which can lie inside the source directory. -/
theorem move_item_self_containment (c : Classification)
    (m : List (Nat × FsPath)) (fs : Fs) (item_path : FsPath)
    (hlook : lookupId m c.id = some item_path)
    (hdir : isDirFs fs item_path = true)
    (hnest : item_path.isPrefixOf (destPathOf c item_path) = true) :
    ((move_item c m fs).1 = Outcome.failedSelfContain ∨
      ∃ e, (move_item c m fs).1 = Outcome.failedError e) ∧
    (∀ en ∈ fs.entries, en ∈ (move_item c m fs).2.entries) ∧
    (∀ en ∈ (move_item c m fs).2.entries,
      en ∈ fs.entries ∨ (en.2 = EntryKind.dir ∧ en.1 <+: destDirOf c)) ∧
    ((mkdirAll fs (destDirOf c)).2 = none →
      (move_item c m fs).1 = Outcome.failedSelfContain) := by
  cases hmk : mkdirAll fs (destDirOf c) with
  | mk fs1 err =>
    have hgo : mkdirAllGo fs (ancestorsOf (destDirOf c)) = (fs1, err) := hmk
    obtain ⟨⟨new1, hnew1, hnew1all⟩, hdirs⟩ :=
      mkdirAllGo_spec (ancestorsOf (destDirOf c)) fs
    rw [hgo] at hnew1 hdirs
    have hsub : ∀ en ∈ fs.entries, en ∈ fs1.entries := by
      intro en hen
      rw [hnew1]
      exact List.mem_append_left _ hen
    have hsup : ∀ en ∈ fs1.entries,
        en ∈ fs.entries ∨ (en.2 = EntryKind.dir ∧ en.1 <+: destDirOf c) := by
      intro en hen
      rw [hnew1] at hen
      rcases List.mem_append.mp hen with hen1 | hen2
      · exact Or.inl hen1
      · obtain ⟨hk, hq⟩ := hnew1all en hen2
        exact Or.inr ⟨hk, ancestorsOf_isPre hq⟩
    cases err with
    | some e =>
      have hstep : move_item c m fs = (Outcome.failedError e, fs1) := by
        rw [move_item_some_eq c m fs item_path hlook, hmk]
      rw [hstep]
      refine ⟨Or.inr ⟨e, rfl⟩, hsub, hsup, ?_⟩
      intro hok
      simp at hok
    | none =>
      have hguard : isDirFs fs1 item_path = true ∧
          item_path.isPrefixOf (destPathOf c item_path) = true :=
        ⟨isDirFs_mono hsub hdir, hnest⟩
      have hstep0 : move_item c m fs =
          (if isDirFs fs1 item_path ∧ item_path.isPrefixOf (destPathOf c item_path) then
            (Outcome.failedSelfContain, fs1)
          else
            match shutilMove fs1 item_path (destPathOf c item_path) with
            | (fs2, none) =>
              (Outcome.success item_path (destPathOf c item_path) (sanitizedCategory c), fs2)
            | (fs2, some e) => (Outcome.failedError e, fs2)) := by
        rw [move_item_some_eq c m fs item_path hlook, hmk]
      have hstep : move_item c m fs = (Outcome.failedSelfContain, fs1) := by
        rw [hstep0, if_pos hguard]
      rw [hstep]
      exact ⟨Or.inl rfl, hsub, hsup, fun _ => rfl⟩

/-- C1 amended witness: the directory C classified as C/Sub; the outcome
is the self-containment failure and every pre-existing entry is kept. -/
theorem move_item_self_containment_witness :
    ((move_item ⟨0, "C", "C/Sub"⟩ [(0, ["C"])] ⟨[(["C"], EntryKind.dir)]⟩).1
        = Outcome.failedSelfContain ∨
      ∃ e, (move_item ⟨0, "C", "C/Sub"⟩ [(0, ["C"])]
        ⟨[(["C"], EntryKind.dir)]⟩).1 = Outcome.failedError e) ∧
    ∀ en ∈ (⟨[(["C"], EntryKind.dir)]⟩ : Fs).entries,
      en ∈ (move_item ⟨0, "C", "C/Sub"⟩ [(0, ["C"])]
        ⟨[(["C"], EntryKind.dir)]⟩).2.entries :=
  ⟨(move_item_self_containment ⟨0, "C", "C/Sub"⟩ [(0, ["C"])]
      ⟨[(["C"], EntryKind.dir)]⟩ ["C"] (by decide) (by decide) (by decide)).1,
    (move_item_self_containment ⟨0, "C", "C/Sub"⟩ [(0, ["C"])]
      ⟨[(["C"], EntryKind.dir)]⟩ ["C"] (by decide) (by decide) (by decide)).2.1⟩

/-- C10: the destination category directory is created, with its missing
ancestors, before the self-containment guard is evaluated; hence whenever
move_item returns the self-containment failure, the sanitized category
directory and all its ancestors exist in the resulting filesystem even
though the source was not moved. -/
theorem move_item_creates_category_dir (c : Classification)
    (m : List (Nat × FsPath)) (fs : Fs)
    (hout : (move_item c m fs).1 = Outcome.failedSelfContain) :
    isDirFs (move_item c m fs).2 (destDirOf c) = true ∧
    ∀ q ∈ ancestorsOf (destDirOf c),
      isDirFs (move_item c m fs).2 q = true := by
  cases hlook : lookupId m c.id with
  | none =>
    rw [move_item_none_eq c m fs hlook] at hout
    simp at hout
  | some ip =>
    cases hmk : mkdirAll fs (destDirOf c) with
    | mk fs1 err =>
      have hgo : mkdirAllGo fs (ancestorsOf (destDirOf c)) = (fs1, err) := hmk
      obtain ⟨_, hdirs⟩ := mkdirAllGo_spec (ancestorsOf (destDirOf c)) fs
      rw [hgo] at hdirs
      cases err with
      | some e =>
        have hstep : move_item c m fs = (Outcome.failedError e, fs1) := by
          rw [move_item_some_eq c m fs ip hlook, hmk]
        rw [hstep] at hout
        simp at hout
      | none =>
        have hstep0 : move_item c m fs =
            (if isDirFs fs1 ip ∧ ip.isPrefixOf (destPathOf c ip) then
              (Outcome.failedSelfContain, fs1)
            else
              match shutilMove fs1 ip (destPathOf c ip) with
              | (fs2, none) =>
                (Outcome.success ip (destPathOf c ip) (sanitizedCategory c), fs2)
              | (fs2, some e) => (Outcome.failedError e, fs2)) := by
          rw [move_item_some_eq c m fs ip hlook, hmk]
        by_cases hguard : isDirFs fs1 ip = true ∧
            ip.isPrefixOf (destPathOf c ip) = true
        · have hstep : move_item c m fs = (Outcome.failedSelfContain, fs1) := by
            rw [hstep0, if_pos hguard]
          rw [hstep]
          have hall : ∀ q ∈ ancestorsOf (destDirOf c), isDirFs fs1 q = true := by
            intro q hq
            exact hdirs rfl q hq
          exact ⟨hall _ (self_mem_ancestorsOf (destDirOf_ne_nil c)), hall⟩
        · have hstep1 : move_item c m fs =
              (match shutilMove fs1 ip (destPathOf c ip) with
              | (fs2, none) =>
                (Outcome.success ip (destPathOf c ip) (sanitizedCategory c), fs2)
              | (fs2, some e) => (Outcome.failedError e, fs2)) := by
            rw [hstep0, if_neg hguard]
          cases hsm : shutilMove fs1 ip (destPathOf c ip) with
          | mk fs2 err2 =>
            cases err2 with
            | none =>
              have hstep : move_item c m fs =
                  (Outcome.success ip (destPathOf c ip) (sanitizedCategory c), fs2) := by
                rw [hstep1, hsm]
              rw [hstep] at hout
              simp at hout
            | some e =>
              have hstep : move_item c m fs = (Outcome.failedError e, fs2) := by
                rw [hstep1, hsm]
              rw [hstep] at hout
              simp at hout

/-- C10 witness: the directory B classified as B/Sub triggers the
self-containment failure, and afterwards the category directory B/Sub
and its ancestor B exist. -/
theorem move_item_creates_category_dir_witness :
    isDirFs (move_item ⟨0, "B", "B/Sub"⟩ [(0, ["B"])]
        ⟨[(["B"], EntryKind.dir)]⟩).2 (destDirOf ⟨0, "B", "B/Sub"⟩) = true ∧
    ∀ q ∈ ancestorsOf (destDirOf ⟨0, "B", "B/Sub"⟩),
      isDirFs (move_item ⟨0, "B", "B/Sub"⟩ [(0, ["B"])]
        ⟨[(["B"], EntryKind.dir)]⟩).2 q = true :=
  move_item_creates_category_dir ⟨0, "B", "B/Sub"⟩ [(0, ["B"])]
    ⟨[(["B"], EntryKind.dir)]⟩ (by decide)

/-! ### Claims about the CLI entry point -/

/-- C8 counterexample: on a root that is not an existing directory, main
catches the ValueError, logs it, and returns normally, so the process
exit code is 0 — not non-zero as claimed. -/
theorem cliMain_invalid_root_exit_zero :
    (cliMain false (fun _ => []) ⟨[]⟩ 64).1 = 0 := rfl

/-- C8 amended: the CLI exits with process code zero whether or not the
root path is an existing directory; an invalid root only produces an
error log message, and no organizing work is performed. -/
theorem cliMain_exit_zero (rootIsDir : Bool) (oracle : Oracle) (fs : Fs)
    (B : Nat) :
    (cliMain rootIsDir oracle fs B).1 = 0 ∧
    (rootIsDir = false → (cliMain rootIsDir oracle fs B).2 = fs) := by
  cases rootIsDir with
  | false => exact ⟨rfl, fun _ => rfl⟩
  | true =>
    refine ⟨?_, ?_⟩
    · rfl
    · intro h
      cases h

/-- C8 amended witness: instantiated at an invalid root. -/
theorem cliMain_exit_zero_witness :
    (cliMain false (fun _ => []) ⟨[]⟩ 64).1 = 0 ∧
    (cliMain false (fun _ => []) ⟨[]⟩ 64).2 = (⟨[]⟩ : Fs) :=
  ⟨(cliMain_exit_zero false (fun _ => []) ⟨[]⟩ 64).1,
    (cliMain_exit_zero false (fun _ => []) ⟨[]⟩ 64).2 rfl⟩


/-! ### Run controller lemmas -/

theorem classifyGo_no_cancel (oracle : Oracle) (t : Nat)
    (chunks : List (List Item)) :
    ∀ (acc : List Classification) (poll : Nat), poll + chunks.length ≤ t →
      classifyGo oracle (cancelFrom t) chunks acc poll =
        (some (chunks.foldl (fun acc batch =>
          if (oracle batch).isEmpty then acc else acc ++ oracle batch) acc),
         poll + chunks.length) := by
  induction chunks with
  | nil =>
    intro acc poll h
    simp [classifyGo]
  | cons batch rest ih =>
    intro acc poll h
    simp only [List.length_cons] at h
    have hc : cancelFrom t poll = false := by
      simp only [cancelFrom, decide_eq_false_iff_not]
      omega
    simp only [classifyGo, hc, Bool.false_eq_true, if_false]
    rw [ih _ (poll + 1) (by omega)]
    simp only [List.foldl_cons, Prod.mk.injEq, List.length_cons]
    exact ⟨trivial, by omega⟩

theorem get_item_categories_cb_no_cancel (oracle : Oracle) (t : Nat)
    (items : List Item) (B poll : Nat) (hitems : items ≠ [])
    (h : poll + (chunksOf B items).length ≤ t) :
    get_item_categories_cb oracle (cancelFrom t) items B poll =
      (some (get_item_categories oracle items B),
        poll + (chunksOf B items).length) := by
  have hfe : items.isEmpty = false := by
    cases items with
    | nil => exact absurd rfl hitems
    | cons x xs => rfl
  unfold get_item_categories_cb get_item_categories
  rw [if_neg (by rw [hfe]; simp), if_neg (by rw [hfe]; simp),
    classifyGo_no_cancel oracle t (chunksOf B items) [] poll h]

theorem moveLoopW_all (t : Nat) (m : List (Nat × FsPath)) :
    ∀ (cs : List Classification) (fs : Fs) (moved poll : Nat),
      poll + cs.length ≤ t →
      moveLoopW (cancelFrom t) m cs fs moved poll =
        (runMoves m cs fs, moved + cs.length, poll + cs.length) := by
  intro cs
  induction cs with
  | nil =>
    intro fs moved poll h
    simp [moveLoopW, runMoves]
  | cons cl rest ih =>
    intro fs moved poll h
    simp only [List.length_cons] at h
    have hc : cancelFrom t poll = false := by
      simp only [cancelFrom, decide_eq_false_iff_not]
      omega
    simp only [moveLoopW, hc, Bool.false_eq_true, if_false]
    rw [ih _ (moved + 1) (poll + 1) (by omega)]
    unfold runMoves
    rw [List.foldl_cons]
    simp only [Prod.mk.injEq, List.length_cons]
    exact ⟨trivial, by omega, by omega⟩

theorem moveLoopW_stops (t : Nat) (m : List (Nat × FsPath)) :
    ∀ (cs : List Classification) (k : Nat) (fs : Fs) (moved poll : Nat),
      k < cs.length → t = poll + k →
      moveLoopW (cancelFrom t) m cs fs moved poll =
        (runMoves m (cs.take k) fs, moved + k, poll + k + 1) := by
  intro cs
  induction cs with
  | nil =>
    intro k fs moved poll hk _
    simp at hk
  | cons cl rest ih =>
    intro k fs moved poll hk ht
    cases k with
    | zero =>
      have hc : cancelFrom t poll = true := by
        simp only [cancelFrom, decide_eq_true_eq]
        omega
      simp only [moveLoopW, hc, if_true, List.take_zero]
      simp [runMoves]
    | succ k2 =>
      have hc : cancelFrom t poll = false := by
        simp only [cancelFrom, decide_eq_false_iff_not]
        omega
      simp only [moveLoopW, hc, Bool.false_eq_true, if_false]
      rw [ih k2 _ (moved + 1) (poll + 1)
        (by simp only [List.length_cons] at hk; omega) (by omega)]
      rw [List.take_succ_cons]
      unfold runMoves
      rw [List.foldl_cons]
      simp only [Prod.mk.injEq]
      exact ⟨trivial, by omega, by omega⟩

/-! ### Claim about run-controller cancellation -/

/-- C9: once the worker observes the cancellation flag it issues no
further moves.  With the flag raised so that it is first observed after
k of the n classified files have been moved (the flag stream is true
from read index t = number-of-file-batches + k + 2 onward, the index of
the flag read before the (k+1)-th move), the run performs exactly the
first k moves: the final filesystem is the fold of move_item over
exactly those k classifications — so the remaining n - k classified
files are untouched — the folders phase is never entered, and the run
ends in the Cancelled phase, not Complete. -/
theorem worker_cancellation (oracle : Oracle) (fs : Fs) (k t : Nat)
    (hfiles : (get_items_to_organize fs).1 ≠ [])
    (hcats : get_item_categories oracle (get_items_to_organize fs).1 64 ≠ [])
    (hk : k ≤ (get_item_categories oracle (get_items_to_organize fs).1 64).length)
    (ht : t = (chunksOf 64 (get_items_to_organize fs).1).length + k + 2) :
    workerRun oracle (cancelFrom t) fs =
      (WPhase.cancelled,
        runMoves (get_items_to_organize fs).2.2
          ((get_item_categories oracle (get_items_to_organize fs).1 64).take k) fs,
        k) := by
  set files := (get_items_to_organize fs).1 with hfilesdef
  set m := (get_items_to_organize fs).2.2 with hmdef
  set cats := get_item_categories oracle files 64 with hcatsdef
  set Bf := (chunksOf 64 files).length with hBfdef
  set n := cats.length with hndef
  have hfe : files.isEmpty = false := by
    cases hfs : files with
    | nil => exact absurd hfs hfiles
    | cons x xs => rfl
  have hcatse : cats.isEmpty = false := by
    cases hcs : cats with
    | nil => exact absurd hcs hcats
    | cons a b => rfl
  have h0 : cancelFrom t 0 = false := by
    simp only [cancelFrom, decide_eq_false_iff_not]
    omega
  have htot : ¬(files.length + (get_items_to_organize fs).2.1.length = 0) := by
    cases hfs : files with
    | nil => exact absurd hfs hfiles
    | cons x xs => simp
  have hcb : get_item_categories_cb oracle (cancelFrom t) files 64 1 =
      (some cats, 1 + Bf) :=
    get_item_categories_cb_no_cancel oracle t files 64 1 hfiles (by omega)
  have hc66 : cancelFrom t (1 + Bf) = false := by
    simp only [cancelFrom, decide_eq_false_iff_not]
    omega
  have hphase0 : workerPhase oracle (cancelFrom t) m files fs 0 1 =
      (if cancelFrom t (1 + Bf) then PhaseResult.stopped fs 0
       else if cats.isEmpty then PhaseResult.proceed fs 0 (1 + Bf + 1)
       else match moveLoopW (cancelFrom t) m cats fs 0 (1 + Bf + 1) with
         | (fs2, moved2, poll2) => PhaseResult.proceed fs2 moved2 poll2) := by
    unfold workerPhase
    rw [if_neg (by rw [hfe]; simp), hcb]
  by_cases hkn : k = n
  · have htake : cats.take k = cats := by
      rw [hkn, hndef]
      exact List.take_length cats
    have hml : moveLoopW (cancelFrom t) m cats fs 0 (1 + Bf + 1) =
        (runMoves m cats fs, 0 + cats.length, 1 + Bf + 1 + cats.length) :=
      moveLoopW_all t m cats fs 0 (1 + Bf + 1) (by omega)
    have hphase : workerPhase oracle (cancelFrom t) m files fs 0 1 =
        PhaseResult.proceed (runMoves m cats fs) (0 + cats.length)
          (1 + Bf + 1 + cats.length) := by
      rw [hphase0, if_neg (by rw [hc66]; simp),
        if_neg (by rw [hcatse]; simp), hml]
    have hP : cancelFrom t (1 + Bf + 1 + cats.length) = true := by
      simp only [cancelFrom, decide_eq_true_eq]
      omega
    unfold workerRun
    rw [if_neg (by rw [h0]; simp), if_neg htot, hphase]
    simp only [hP, if_true, Nat.zero_add]
    rw [htake, hkn, hndef]
  · have hlt : k < n := by omega
    have hml : moveLoopW (cancelFrom t) m cats fs 0 (1 + Bf + 1) =
        (runMoves m (cats.take k) fs, 0 + k, 1 + Bf + 1 + k + 1) :=
      moveLoopW_stops t m cats k fs 0 (1 + Bf + 1) hlt (by omega)
    have hphase : workerPhase oracle (cancelFrom t) m files fs 0 1 =
        PhaseResult.proceed (runMoves m (cats.take k) fs) (0 + k)
          (1 + Bf + 1 + k + 1) := by
      rw [hphase0, if_neg (by rw [hc66]; simp),
        if_neg (by rw [hcatse]; simp), hml]
    have hP : cancelFrom t (1 + Bf + 1 + k + 1) = true := by
      simp only [cancelFrom, decide_eq_true_eq]
      omega
    unfold workerRun
    rw [if_neg (by rw [h0]; simp), if_neg htot, hphase]
    simp only [hP, if_true, Nat.zero_add]

/-- C9 witness: two scanned files both classified, cancellation flag
first observed at read index 4 — after one move; the run ends Cancelled
with exactly the first file relocated. -/
theorem worker_cancellation_witness :
    workerRun (fun batch => batch.map (fun it => ⟨it.id, it.name, "Docs"⟩))
      (cancelFrom 4)
      ⟨[(["a.txt"], EntryKind.file), (["b.txt"], EntryKind.file)]⟩ =
      (WPhase.cancelled,
        runMoves (get_items_to_organize
            ⟨[(["a.txt"], EntryKind.file), (["b.txt"], EntryKind.file)]⟩).2.2
          ((get_item_categories
            (fun batch => batch.map (fun it => ⟨it.id, it.name, "Docs"⟩))
            (get_items_to_organize
              ⟨[(["a.txt"], EntryKind.file), (["b.txt"], EntryKind.file)]⟩).1
            64).take 1)
          ⟨[(["a.txt"], EntryKind.file), (["b.txt"], EntryKind.file)]⟩,
        1) :=
  worker_cancellation (fun batch => batch.map (fun it => ⟨it.id, it.name, "Docs"⟩))
    ⟨[(["a.txt"], EntryKind.file), (["b.txt"], EntryKind.file)]⟩ 1 4
    (by decide) (by decide) (by decide) (by decide)


end Organizer
